import Mathlib

/-!
Verification development for the partition delta and provenance resolver
(adevtool frontend).  The TypeScript sources `src/frontend/generate.ts`,
`src/commands/check-presigned.ts` and the makefile serializer are embedded
shallowly: JavaScript `Map`s become association lists with JS `Map.set` /
`Map.delete` semantics, `Array.prototype.sort` becomes a stable insertion
sort parameterised by the comparator (the host locale's collation is a
parameter, since `localeCompare` consults the environment), and fallible
code returns `Option`.
-/

/-- Keys of a JS-`Map`-like association list, in insertion order. -/
def jsKeys {α : Type} (m : List (String × α)) : List String :=
  m.map Prod.fst

/-- JS `Map.prototype.set`: if the key is present, replace its value in
place (keeping its position); otherwise append the new binding. -/
def jsMapSet {α : Type} (m : List (String × α)) (k : String) (v : α) :
    List (String × α) :=
  if m.any (fun kv => kv.1 == k) then
    m.map (fun kv => if kv.1 == k then (k, v) else kv)
  else
    m ++ [(k, v)]

/-- JS `Map.prototype.delete`: remove the binding for the key (a JS map has
at most one; on arbitrary lists this removes every binding of the key). -/
def jsMapDelete {α : Type} (m : List (String × α)) (k : String) :
    List (String × α) :=
  m.filter (fun kv => kv.1 != k)

/-- Stable insertion of one element with respect to a boolean comparator:
the new element goes in front of the first list element it compares
less-or-equal to. -/
def insertLe (le : String → String → Bool) (x : String) :
    List String → List String
  | [] => [x]
  | y :: ys => if le x y then x :: y :: ys else y :: insertLe le x ys

/-- Model of JS `Array.prototype.sort` with comparator
`(a, b) => a.localeCompare(b)`: a stable comparison sort.  The collation
`le` is a parameter because `localeCompare` consults the host locale. -/
def sortLe (le : String → String → Bool) (l : List String) : List String :=
  l.foldr (insertLe le) []

/-- Lexicographic less-or-equal on key sequences, used to build concrete
locale collations. -/
def lexLe : List Nat → List Nat → Bool
  | [], _ => true
  | _ :: _, [] => false
  | x :: xs, y :: ys =>
    if x < y then true else if y < x then false else lexLe xs ys

/-- Collation induced by a per-character key function (a simple model of an
ICU locale collation). -/
def keyedLe (key : Char → Nat) (a b : String) : Bool :=
  lexLe (a.data.map key) (b.data.map key)

/-- German-style collation: the letter ä sorts immediately after a
(as in the de locale, where ä is a variant of a). -/
def deLe : String → String → Bool :=
  keyedLe (fun c => if c = 'ä' then 2 * Char.toNat 'a' + 1 else 2 * c.toNat)

/-- Swedish-style collation: the letter ä sorts after z (in the sv locale
ä is a separate letter at the end of the alphabet). -/
def svLe : String → String → Bool :=
  keyedLe (fun c => if c = 'ä' then 2 * Char.toNat 'z' + 1 else 2 * c.toNat)

/-- Code-point collation (a locale-independent comparison, used to
instantiate theorems at concrete comparators). -/
def codepointLe : String → String → Bool :=
  keyedLe Char.toNat

/- ### File enumeration (`enumerateFiles`, src/frontend/generate.ts) -/

/-- Modelled from the spec: `diffLists` (blobs/file-list, not under src/)
computes the missing set, the stock items whose identity is absent from
the custom set; the call site is `diffLists(filesNew, filesRef)`. -/
def diffLists (filesNew filesRef : List String) : List String :=
  filesRef.filter (fun f => !(filesNew.contains f))

/-- Modelled from the spec: `filterValues` (config/filters, not under
src/) keeps, in order, the candidates matching the filter set; the
force-include pattern set is abstracted as a boolean predicate. -/
def filterValues (sel : String → Bool) (values : List String) :
    List String :=
  values.filter sel

/-- A blob entry as far as the diff stage needs it. -/
structure BlobEntry where
  partition : String
  path : String
deriving Repr, DecidableEq

/-- Modelled from the spec: `combinedPartPathToEntry` (blobs/file-list,
not under src/) builds the entry for a combined partition path, stripping
the partition prefix from the destination path. -/
def combinedPartPathToEntry (partition combinedPartPath : String) :
    BlobEntry :=
  ⟨partition, combinedPartPath.drop (partition.length + 1)⟩

/-- Modelled from the spec: the fixed, ordered set of system partitions
(util/partitions, not under src/). -/
def ALL_SYS_PARTITIONS : List String :=
  ["system", "system_ext", "product", "vendor", "odm"]

/-- The merge performed by `enumerateFiles` (generate.ts lines 49-57):
diff the stock list against the custom list, then, when force-include
filters are configured, push the force-include matches from the stock
list and re-sort with `localeCompare`. -/
def mergedMissingFiles (le : String → String → Bool)
    (matchesForce : Option (String → Bool))
    (filesRef filesNew : List String) : List String :=
  let missingFiles := diffLists filesNew filesRef
  match matchesForce with
  | some mf => sortLe le (missingFiles ++ filterValues mf filesRef)
  | none => missingFiles

/-- One iteration of the partition loop of `enumerateFiles`
(generate.ts lines 41-65): skip the partition when either listing is
absent, otherwise merge the missing files and record each as a named
entry keyed by its combined partition path. -/
def partStep (le : String → String → Bool)
    (matchesForce : Option (String → Bool))
    (stockList customList : Option (List String)) (p : String)
    (namedEntries : List (String × BlobEntry)) :
    List (String × BlobEntry) :=
  match stockList with
  | none => namedEntries
  | some filesRef =>
    match customList with
    | none => namedEntries
    | some filesNew =>
      (mergedMissingFiles le matchesForce filesRef filesNew).foldl
        (fun m cpp => jsMapSet m cpp (combinedPartPathToEntry p cpp))
        namedEntries

/-- Custom file list selection of `enumerateFiles` (generate.ts lines
44-46): a saved system state takes precedence, then a custom source tree,
and with neither the custom list is empty. -/
def customFilesFor (customState customSrc : Option (String → Option (List String)))
    (p : String) : Option (List String) :=
  match customState with
  | some st => st p
  | none =>
    match customSrc with
    | some src => src p
    | none => some []

/-- `enumerateFiles` (generate.ts lines 32-66): fold the partition step
over the fixed partition list, starting from the given named-entry map. -/
def enumerateFiles (le : String → String → Bool)
    (matchesForce : Option (String → Bool))
    (stock : String → Option (List String))
    (customState customSrc : Option (String → Option (List String)))
    (init : List (String × BlobEntry)) : List (String × BlobEntry) :=
  ALL_SYS_PARTITIONS.foldl
    (fun m p => partStep le matchesForce (stock p)
      (customFilesFor customState customSrc p) p m)
    init

/- ### Module override resolution (`resolveOverrides`, generate.ts) -/

/-- One parsed module-info record: the paths the module installs and the
directory owning its metadata. -/
structure ModuleInfo where
  installedPaths : List String
  owningDir : String
deriving Repr, DecidableEq

/-- Modelled from the spec: `removeSelfModules` (build/soong-info, not
under src/) excludes modules whose owning source directory is the tool's
own proprietary output directory. -/
def removeSelfModules (modulesMap : List (String × ModuleInfo))
    (proprietaryDir : String) : List (String × ModuleInfo) :=
  modulesMap.filter (fun m => m.2.owningDir != proprietaryDir)

/-- Modelled from the spec: `findOverrideModules` (build/overrides, not
under src/) records, for each module whose declared installed paths meet
the candidate set, the module name and its matched paths. -/
def findOverrideModules (targetPaths : List String)
    (modulesMap : List (String × ModuleInfo)) :
    List String × List String :=
  let matched := modulesMap.filter
    (fun m => m.2.installedPaths.any (fun p => targetPaths.contains p))
  (matched.map Prod.fst,
    (matched.map
      (fun m => m.2.installedPaths.filter (fun p => targetPaths.contains p))).flatten)

/-- Replace the first occurrence of a pattern by the empty string, on
character lists (JS `String.prototype.replace` with a string pattern and
empty replacement). -/
def replFirst (pat : List Char) : List Char → List Char
  | [] => []
  | c :: rest =>
    if pat.isPrefixOf (c :: rest) then (c :: rest).drop pat.length
    else c :: replFirst pat rest

/-- JS `path.replace(targetPrefix, '')` (generate.ts line 85): drop the
first occurrence of the pattern. -/
def jsReplaceOnce (s pat : String) : String :=
  ⟨replFirst pat.data s.data⟩

/-- The target prefix of `resolveOverrides` (generate.ts line 73). -/
def targetPrefixOf (deviceName : String) : String :=
  "out/target/product/" ++ deviceName ++ "/"

/-- The target paths of `resolveOverrides` (generate.ts lines 74-75): the
named-entry keys prefixed with the build output directory. -/
def targetPathsOf (deviceName : String)
    (namedEntries : List (String × BlobEntry)) : List String :=
  (jsKeys namedEntries).map (fun cPartPath => targetPrefixOf deviceName ++ cPartPath)

/-- The override search performed by `resolveOverrides` (generate.ts
lines 78-81): drop the tool's own modules, then match the candidate
target paths against the module metadata. -/
def resolveOverridesFound (deviceName proprietaryDir : String)
    (modulesMap : List (String × ModuleInfo))
    (namedEntries : List (String × BlobEntry)) : List String × List String :=
  findOverrideModules (targetPathsOf deviceName namedEntries)
    (removeSelfModules modulesMap proprietaryDir)

/-- `resolveOverrides` (generate.ts lines 68-89): find override modules,
delete each built path (first occurrence of the target prefix removed)
from the named entries, and return the built module names together with
the updated entries. -/
def resolveOverrides (deviceName proprietaryDir : String)
    (modulesMap : List (String × ModuleInfo))
    (namedEntries : List (String × BlobEntry)) :
    List String × List (String × BlobEntry) :=
  let found := resolveOverridesFound deviceName proprietaryDir modulesMap namedEntries
  (found.1,
    found.2.foldl
      (fun es p => jsMapDelete es (jsReplaceOnce p (targetPrefixOf deviceName)))
      namedEntries)

/-- The device-makefile packages merge of `generateBuildFiles`
(generate.ts lines 270-272): push the build packages for overridden
modules, then re-sort with `localeCompare`. -/
def generatePackagesList (le : String → String → Bool)
    (packages buildPkgs : List String) : List String :=
  sortLe le (packages ++ buildPkgs)

/- ### Property extraction (`extractProps`, generate.ts) -/

/-- Modelled from the spec: `filterKeys` (config/filters, not under src/)
keeps the properties whose key matches the filter set, abstracted as a
boolean predicate. -/
def filterKeys (keep : String → Bool) (props : List (String × String)) :
    List (String × String) :=
  props.filter (fun kv => keep kv.1)

/-- The per-partition key filter pass of `extractProps` (generate.ts
lines 134-139), applied to every partition of a property map. -/
def filterAllProps (keep : String → Bool)
    (pp : List (String × List (String × String))) :
    List (String × List (String × String)) :=
  pp.map (fun e => (e.1, filterKeys keep e.2))

/-- Modelled from the spec: the removed category of the property diff,
the stock properties whose key is absent from the custom partition. -/
def propsRemoved (stockP customP : List (String × String)) :
    List (String × String) :=
  stockP.filter (fun kv => (List.lookup kv.1 customP).isNone)

/-- Modelled from the spec: the changed category of the property diff,
the stock properties present in custom with a different value. -/
def propsChanged (stockP customP : List (String × String)) :
    List (String × String) :=
  stockP.filter (fun kv =>
    match List.lookup kv.1 customP with
    | some v => v != kv.2
    | none => false)

/-- The removed/changed pair for one partition. -/
structure PropChanges where
  removed : List (String × String)
  changed : List (String × String)
deriving Repr, DecidableEq

/-- Modelled from the spec: `diffPartitionProps` (blobs/props, not under
src/) diffs the two property maps partition by partition, distinguishing
removed from changed. -/
def diffPartitionProps (stock custom : List (String × List (String × String))) :
    List (String × PropChanges) :=
  stock.map (fun e =>
    let customP := (List.lookup e.1 custom).getD []
    (e.1, ⟨propsRemoved e.2 customP, propsChanged e.2 customP⟩))

/-- The `missingProps` built by `extractProps` (generate.ts lines
144-150): keep only the removed category of each partition's diff. -/
def missingPropsOf (stock custom : List (String × List (String × String))) :
    List (String × List (String × String)) :=
  (diffPartitionProps stock custom).map (fun e => (e.1, e.2.removed))

/-- The result record of `extractProps` (generate.ts lines 24-30 and
158-164).  The fingerprint is optional because the non-null assertion on
`get('ro.system.build.fingerprint')` is erased at runtime: a missing key
yields `undefined` without failing. -/
structure PropResults where
  stockProps : List (String × List (String × String))
  missingProps : List (String × List (String × String))
  fingerprint : Option String
  missingOtaParts : List String
deriving Repr, DecidableEq

/-- `extractProps` (generate.ts lines 122-165): filter both property
maps, read the system fingerprint, diff the maps keeping the removed
category, and compute the missing A/B OTA partitions.  Returns `none`
exactly where the JS code throws a `TypeError`: `.get(...)` on an absent
`system` or `product` partition map, or `.split(',')` on an absent
`ro.product.ab_ota_partitions` value.  A missing fingerprint key does not
fail: the trailing `!` is a compile-time assertion only. -/
def extractProps (keepProp keepPartition : String → Bool)
    (stockPropsRaw customPropsRaw : List (String × List (String × String))) :
    Option PropResults :=
  let stockProps := filterAllProps keepProp stockPropsRaw
  let customProps := filterAllProps keepProp customPropsRaw
  match List.lookup "system" stockProps with
  | none => none
  | some sysProps =>
    let fingerprint := List.lookup "ro.system.build.fingerprint" sysProps
    let missingProps := missingPropsOf stockProps customProps
    match List.lookup "product" stockProps with
    | none => none
    | some prodProps =>
      match List.lookup "ro.product.ab_ota_partitions" prodProps with
      | none => none
      | some otaStr =>
        let stockOtaParts := otaStr.splitOn ","
        let customOtaParts :=
          (((List.lookup "product" customProps).bind
            (fun pp => List.lookup "ro.product.ab_ota_partitions" pp)).map
            (fun s => s.splitOn ",")).getD []
        let missingOtaParts := stockOtaParts.filter
          (fun p => !(customOtaParts.contains p) && keepPartition p)
        some ⟨stockProps, missingProps, fingerprint, missingOtaParts⟩

/- ### SELinux context provenance (`resolveSepolicyDirs`, generate.ts) -/

/-- The accumulation of one parsed directory into the combined source
context table (generate.ts lines 183-185): each parsed entry is written
with `Map.set`, so a later entry for the same label overwrites. -/
def insertAllCtxs (m : List (String × String))
    (entries : List (String × String)) : List (String × String) :=
  entries.foldl (fun m kv => jsMapSet m kv.1 kv.2) m

/-- The combined `sourceContexts` table of `resolveSepolicyDirs`
(generate.ts lines 179-186): parse each configured sepolicy source
directory in configuration order and merge the results last-write-wins.
`parse` abstracts `parseContextsRecursive` (selinux/contexts, not under
src/), which returns one label-to-source table per directory. -/
def combineSourceContexts (parse : String → List (String × String))
    (dirs : List String) : List (String × String) :=
  dirs.foldl (fun m d => insertAllCtxs m (parse d)) []

/-- One partition's context resolution: the sepolicy directories found
for its missing labels, and the labels with no upstream source. -/
structure PartResolution where
  sepolicyDirs : List String
  missingContexts : List String
deriving Repr, DecidableEq

/-- Modelled from the spec: `diffPartContexts` (selinux/contexts, not
under src/) computes, per partition present in both context maps, the
labels of the second map absent from the first; a partition absent from
either side is skipped. -/
def diffPartContexts (customCtxs stockCtxs : List (String × List String)) :
    List (String × List String) :=
  stockCtxs.filterMap (fun e =>
    match List.lookup e.1 customCtxs with
    | none => none
    | some cl => some (e.1, e.2.filter (fun lbl => !(cl.contains lbl))))

/-- Modelled from the spec: `resolvePartContextDiffs` (selinux/contexts,
not under src/): for each partition's missing labels, look each label up
in the combined source table; a hit records the source directory
(deduplicated, first-discovery order), a miss appends the label to
`missingContexts`; the directory exclude filter is applied to the
collected directories before returning. -/
def resolvePartContextDiffs (ctxDiffs : List (String × List String))
    (sourceContexts : List (String × String)) (keepDir : String → Bool) :
    List (String × PartResolution) :=
  ctxDiffs.map (fun e =>
    let acc := e.2.foldl
      (fun (acc : List String × List String) lbl =>
        match List.lookup lbl sourceContexts with
        | some dir =>
          if acc.1.contains dir then acc else (acc.1 ++ [dir], acc.2)
        | none => (acc.1, acc.2 ++ [lbl]))
      ([], [])
    (e.1, ⟨acc.1.filter keepDir, acc.2⟩))

/-- The APEX label injection of `resolveSepolicyDirs` (generate.ts lines
192-195): only when the resolutions already contain a `vendor` entry is
the tool's own sepolicy output directory pushed onto its directory
list. -/
def addApexLabels (res : List (String × PartResolution))
    (sepolicyDir : String) : List (String × PartResolution) :=
  if (List.lookup "vendor" res).isSome then
    res.map (fun e =>
      if e.1 == "vendor" then
        (e.1, ⟨e.2.sepolicyDirs ++ [sepolicyDir], e.2.missingContexts⟩)
      else e)
  else res

/-- The context resolutions before APEX label injection (generate.ts
lines 179-190). -/
def ctxResolutionsOf (sepolicyDirs : List String)
    (parse : String → List (String × String))
    (stockContexts customContexts : List (String × List String))
    (keepDir : String → Bool) : List (String × PartResolution) :=
  resolvePartContextDiffs (diffPartContexts customContexts stockContexts)
    (combineSourceContexts parse sepolicyDirs) keepDir

/-- `resolveSepolicyDirs` (generate.ts lines 167-198): resolve the
per-partition context diffs against the combined source table, then
inject the tool's own sepolicy output directory into the vendor entry
when one exists. -/
def resolveSepolicyDirs (sepolicyDirs : List String)
    (parse : String → List (String × String))
    (stockContexts customContexts : List (String × List String))
    (keepDir : String → Bool) (dirsSepolicy : String) :
    List (String × PartResolution) :=
  addApexLabels
    (ctxResolutionsOf sepolicyDirs parse stockContexts customContexts keepDir)
    dirsSepolicy

/- ### Board makefile serialization (`serializeBoardMakefile`) -/

/-- Modelled from the spec: the fixed makefile header constant
(util/headers, not under src/); its exact text is irrelevant to the
claims. -/
def MAKEFILE_HEADER : String :=
  "# Generated by adevtool; do not edit"

/-- The continuation separator for multi-line makefile assignments. -/
def CONT_SEPARATOR : String :=
  " \\\n    "

/-- The partition-to-build-variable table of the board serializer. -/
def SEPOLICY_PARTITION_VARS (part : String) : Option String :=
  if part = "system" then some "BOARD_PLAT_PUBLIC_SEPOLICY_DIR"
  else if part = "system_ext" then some "SYSTEM_EXT_PUBLIC_SEPOLICY_DIRS"
  else if part = "product" then some "PRODUCT_PUBLIC_SEPOLICY_DIRS"
  else if part = "vendor" then some "BOARD_VENDOR_SEPOLICY_DIRS"
  else if part = "odm" then some "BOARD_ODM_SEPOLICY_DIRS"
  else none

/-- The board makefile structure (BoardMakefile interface). -/
structure BoardMakefile where
  abOtaPartitions : Option (List String)
  boardInfo : Option String
  secontextResolutions : Option (List (String × PartResolution))
deriving Repr, DecidableEq

/-- `addContBlock`: append one continued variable-assignment block when
the item list is defined. -/
def addContBlock (blocks : List String) (vr : String)
    (items : Option (List String)) : List String :=
  match items with
  | none => blocks
  | some its =>
    blocks ++ [vr ++ " += \\\n    " ++ String.intercalate CONT_SEPARATOR its]

/-- One diagnostic comment line for an unresolved SELinux context. -/
def missingCtxLine (part ctx : String) : String :=
  "# Missing " ++ part ++ " SELinux context: " ++ ctx

/-- The diagnostic block for a partition's unresolved contexts: its
comment lines joined by newlines. -/
def missingCtxBlock (part : String) (ctxs : List String) : String :=
  String.intercalate "\n" (ctxs.map (missingCtxLine part))

/-- The body of the per-partition resolution loop of
`serializeBoardMakefile`: emit the sepolicy-directory variable block when
the directory list is non-empty, then the missing-context diagnostic
block when any label is unresolved. -/
def resolutionStep (bs : List String) (e : String × PartResolution) :
    List String :=
  let bs :=
    if e.2.sepolicyDirs.length > 0 then
      addContBlock bs ((SEPOLICY_PARTITION_VARS e.1).getD "undefined")
        (some e.2.sepolicyDirs)
    else bs
  if e.2.missingContexts.length > 0 then
    bs ++ [missingCtxBlock e.1 e.2.missingContexts]
  else bs

/-- The blocks a single partition resolution contributes. -/
def resolutionBlocks (e : String × PartResolution) : List String :=
  (if e.2.sepolicyDirs.length > 0 then
    [(SEPOLICY_PARTITION_VARS e.1).getD "undefined" ++ " += \\\n    " ++
      String.intercalate CONT_SEPARATOR e.2.sepolicyDirs]
  else []) ++
  (if e.2.missingContexts.length > 0 then
    [missingCtxBlock e.1 e.2.missingContexts]
  else [])

/-- The block list built by `serializeBoardMakefile`. -/
def serializeBoardBlocks (mk : BoardMakefile) : List String :=
  let blocks := [MAKEFILE_HEADER]
  let blocks := blocks ++ ["BUILD_BROKEN_ELF_PREBUILT_PRODUCT_COPY_FILES := true"]
  let blocks :=
    if (mk.abOtaPartitions.getD []).contains "vendor" then
      blocks ++ ["BOARD_VENDORIMAGE_FILE_SYSTEM_TYPE := ext4"]
    else blocks
  let blocks := addContBlock blocks "AB_OTA_PARTITIONS" mk.abOtaPartitions
  let blocks :=
    match mk.boardInfo with
    | some bi => blocks ++ ["TARGET_BOARD_INFO_FILE := " ++ bi]
    | none => blocks
  match mk.secontextResolutions with
  | none => blocks
  | some res => res.foldl resolutionStep blocks

/-- `serializeBoardMakefile`: the blocks joined by blank lines, with a
trailing newline (`finishBlocks`). -/
def serializeBoardMakefile (mk : BoardMakefile) : String :=
  String.intercalate "\n\n" (serializeBoardBlocks mk) ++ "\n"

/- ### Order and permutation lemmas for the sort model -/

theorem insertLe_perm (le : String → String → Bool) (x : String)
    (l : List String) : (insertLe le x l).Perm (x :: l) := by
  induction l with
  | nil => simp [insertLe]
  | cons y ys ih =>
    rw [insertLe]
    by_cases h : le x y = true
    · simp [h]
    · simp only [h, if_false]
      exact (ih.cons y).trans (List.Perm.swap x y ys)

theorem sortLe_perm (le : String → String → Bool) (l : List String) :
    (sortLe le l).Perm l := by
  induction l with
  | nil => simp [sortLe]
  | cons x xs ih =>
    have : sortLe le (x :: xs) = insertLe le x (sortLe le xs) := rfl
    rw [this]
    exact (insertLe_perm le x (sortLe le xs)).trans (ih.cons x)

theorem pairwise_insertLe (le : String → String → Bool)
    (htot : ∀ a b, le a b = true ∨ le b a = true)
    (htrans : ∀ a b c, le a b = true → le b c = true → le a c = true)
    (x : String) (l : List String)
    (h : List.Pairwise (fun a b => le a b = true) l) :
    List.Pairwise (fun a b => le a b = true) (insertLe le x l) := by
  induction l with
  | nil => simp [insertLe]
  | cons y ys ih =>
    rw [insertLe]
    rcases List.pairwise_cons.mp h with ⟨hy, hys⟩
    by_cases hxy : le x y = true
    · simp only [hxy, if_true]
      refine List.Pairwise.cons ?_ h
      intro z hz
      rcases List.mem_cons.mp hz with rfl | hz'
      · exact hxy
      · exact htrans x y z hxy (hy z hz')
    · simp only [hxy, if_false]
      refine List.Pairwise.cons ?_ (ih hys)
      intro z hz
      have hz' : z = x ∨ z ∈ ys := by
        have := (insertLe_perm le x ys).mem_iff.mp hz
        simpa using this
      rcases hz' with rfl | hz'
      · rcases htot z y with hzy | hyz
        · exact absurd hzy hxy
        · exact hyz
      · exact hy z hz'

theorem pairwise_sortLe (le : String → String → Bool)
    (htot : ∀ a b, le a b = true ∨ le b a = true)
    (htrans : ∀ a b c, le a b = true → le b c = true → le a c = true)
    (l : List String) :
    List.Pairwise (fun a b => le a b = true) (sortLe le l) := by
  induction l with
  | nil => simp [sortLe]
  | cons x xs ih => exact pairwise_insertLe le htot htrans x (sortLe le xs) ih

theorem lexLe_total (xs ys : List Nat) :
    lexLe xs ys = true ∨ lexLe ys xs = true := by
  induction xs generalizing ys with
  | nil => left; rfl
  | cons x xs ih =>
    cases ys with
    | nil => right; rfl
    | cons y ys =>
      rcases lt_trichotomy x y with h | h | h
      · left; simp [lexLe, h]
      · subst h
        rcases ih ys with h' | h'
        · left; simp [lexLe, h']
        · right; simp [lexLe, h']
      · right; simp [lexLe, h]

theorem lexLe_trans (xs ys zs : List Nat) (h1 : lexLe xs ys = true)
    (h2 : lexLe ys zs = true) : lexLe xs zs = true := by
  induction xs generalizing ys zs with
  | nil => rfl
  | cons x xs ih =>
    cases ys with
    | nil => simp [lexLe] at h1
    | cons y ys =>
      cases zs with
      | nil => simp [lexLe] at h2
      | cons z zs =>
        rw [lexLe] at h1 h2 ⊢
        by_cases hxy : x < y
        · by_cases hyz : y < z
          · simp [lt_trans hxy hyz]
          · by_cases hzy : z < y
            · simp [lexLe, hyz, hzy] at h2
            · have : y = z := le_antisymm (not_lt.mp hzy) (not_lt.mp hyz)
              subst this
              simp [hxy]
        · by_cases hyx : y < x
          · simp [hxy, hyx] at h1
          · have hxy' : x = y := le_antisymm (not_lt.mp hyx) (not_lt.mp hxy)
            subst hxy'
            simp only [hxy, if_false, lt_irrefl] at h1 ⊢
            by_cases hyz : x < z
            · simp [hyz]
            · by_cases hzy : z < x
              · simp [hyz, hzy] at h2
              · have : x = z := le_antisymm (not_lt.mp hzy) (not_lt.mp hyz)
                subst this
                simp only [lt_irrefl, if_false] at h1 h2 ⊢
                exact ih ys zs h1 h2

theorem keyedLe_total (key : Char → Nat) (a b : String) :
    keyedLe key a b = true ∨ keyedLe key b a = true :=
  lexLe_total (a.data.map key) (b.data.map key)

theorem keyedLe_trans (key : Char → Nat) (a b c : String)
    (h1 : keyedLe key a b = true) (h2 : keyedLe key b c = true) :
    keyedLe key a c = true :=
  lexLe_trans (a.data.map key) (b.data.map key) (c.data.map key) h1 h2

/- ### JS map lemmas -/

theorem any_key_iff {α : Type} (m : List (String × α)) (k : String) :
    (m.any (fun kv => kv.1 == k)) = true ↔ k ∈ jsKeys m := by
  simp only [jsKeys, List.any_eq_true, List.mem_map, beq_iff_eq]

theorem jsKeys_jsMapSet {α : Type} (m : List (String × α)) (k : String)
    (v : α) :
    jsKeys (jsMapSet m k v) =
      if k ∈ jsKeys m then jsKeys m else jsKeys m ++ [k] := by
  unfold jsMapSet
  by_cases h : k ∈ jsKeys m
  · rw [if_pos ((any_key_iff m k).mpr h), if_pos h]
    simp only [jsKeys, List.map_map]
    apply List.map_congr_left
    intro kv _
    by_cases hk : kv.1 = k
    · simp [Function.comp, hk]
    · simp [Function.comp, hk]
  · rw [if_neg (fun hc => h ((any_key_iff m k).mp hc)), if_neg h]
    simp [jsKeys]

theorem mem_jsKeys_jsMapSet {α : Type} (m : List (String × α))
    (k k' : String) (v : α) :
    k' ∈ jsKeys (jsMapSet m k v) ↔ k' = k ∨ k' ∈ jsKeys m := by
  rw [jsKeys_jsMapSet]
  by_cases h : k ∈ jsKeys m
  · simp only [if_pos h]
    constructor
    · exact Or.inr
    · rintro (rfl | h'); exact h; exact h'
  · simp only [if_neg h, List.mem_append, List.mem_singleton]
    tauto

theorem nodup_jsKeys_jsMapSet {α : Type} (m : List (String × α))
    (k : String) (v : α) (h : (jsKeys m).Nodup) :
    (jsKeys (jsMapSet m k v)).Nodup := by
  rw [jsKeys_jsMapSet]
  by_cases hk : k ∈ jsKeys m
  · rwa [if_pos hk]
  · rw [if_neg hk, List.nodup_append]
    exact ⟨h, List.nodup_singleton k, fun x hx hx' => by
      rw [List.mem_singleton] at hx'; subst hx'; exact hk hx⟩

theorem lookup_eq_none_of_not_mem {α : Type} (m : List (String × α))
    (k : String) (h : k ∉ jsKeys m) : List.lookup k m = none := by
  induction m with
  | nil => rfl
  | cons kv rest ih =>
    have h1 : k ≠ kv.1 := fun hc => h (by simp [jsKeys, hc])
    have h2 : k ∉ jsKeys rest := fun hc => h (by simp [jsKeys] at hc ⊢; tauto)
    simpa [List.lookup, beq_false_of_ne h1] using ih h2

theorem lookup_cons_ne {α : Type} (a k' : String) (b : α)
    (l : List (String × α)) (h : k' ≠ a) :
    List.lookup k' ((a, b) :: l) = List.lookup k' l := by
  rw [List.lookup_cons]
  simp [beq_false_of_ne h]

theorem lookup_map_replace {α : Type} (m : List (String × α))
    (k k' : String) (v : α) :
    List.lookup k' (m.map (fun kv => if kv.1 == k then (k, v) else kv)) =
      if k' = k then (List.lookup k m).map (fun _ => v)
      else List.lookup k' m := by
  induction m with
  | nil => by_cases h : k' = k <;> simp [h]
  | cons kv rest ih =>
    obtain ⟨a, b⟩ := kv
    rw [List.map_cons]
    by_cases h1 : a = k
    · have e1 : (if ((a, b).1 == k) then (k, v) else (a, b)) = (k, v) := by
        simp [h1]
      rw [e1]
      by_cases h2 : k' = k
      · rw [h2, List.lookup_cons_self, if_pos rfl, ← h1,
          List.lookup_cons_self]
        simp
      · rw [lookup_cons_ne k k' v _ h2, ih, if_neg h2, if_neg h2,
          lookup_cons_ne a k' b rest (fun hc => h2 (hc.trans h1))]
    · have e1 : (if ((a, b).1 == k) then (k, v) else (a, b)) = (a, b) := by
        simp [h1]
      rw [e1]
      by_cases h2 : k' = a
      · rw [h2, List.lookup_cons_self, if_neg h1, List.lookup_cons_self]
      · rw [lookup_cons_ne a k' b _ h2, ih]
        by_cases h3 : k' = k
        · rw [if_pos h3, if_pos h3,
            lookup_cons_ne a k b rest (fun hc => h1 hc.symm)]
        · rw [if_neg h3, if_neg h3, lookup_cons_ne a k' b rest h2]

theorem lookup_isSome_of_mem {α : Type} (m : List (String × α))
    (k : String) (h : k ∈ jsKeys m) : ∃ w, List.lookup k m = some w := by
  induction m with
  | nil => simp [jsKeys] at h
  | cons kv rest ih =>
    by_cases hk : k = kv.1
    · exact ⟨kv.2, by simp [List.lookup, hk]⟩
    · have hrest : k ∈ jsKeys rest := by
        rcases List.mem_cons.mp h with h' | h'
        · exact absurd h' hk
        · exact h'
      rcases ih hrest with ⟨w, hw⟩
      exact ⟨w, by simpa [List.lookup, beq_false_of_ne hk] using hw⟩

theorem lookup_jsMapSet {α : Type} (m : List (String × α)) (k k' : String)
    (v : α) :
    List.lookup k' (jsMapSet m k v) =
      if k' = k then some v else List.lookup k' m := by
  unfold jsMapSet
  by_cases hmem : k ∈ jsKeys m
  · rw [if_pos ((any_key_iff m k).mpr hmem), lookup_map_replace]
    by_cases h : k' = k
    · rw [if_pos h, if_pos h]
      rcases lookup_isSome_of_mem m k hmem with ⟨w, hw⟩
      simp [hw]
    · rw [if_neg h, if_neg h]
  · rw [if_neg (fun hc => hmem ((any_key_iff m k).mp hc)), List.lookup_append]
    by_cases h : k' = k
    · subst h
      rw [lookup_eq_none_of_not_mem m k' hmem]
      simp [List.lookup]
    · rw [if_neg h]
      simp [List.lookup, beq_false_of_ne h]

/- ### Named-entry fold lemmas -/

theorem mem_jsKeys_foldl_set (g : String → BlobEntry) (l : List String)
    (m : List (String × BlobEntry)) (c : String) (hc : c ∈ jsKeys m) :
    c ∈ jsKeys (l.foldl (fun m cpp => jsMapSet m cpp (g cpp)) m) := by
  induction l generalizing m with
  | nil => exact hc
  | cons x xs ih =>
    rw [List.foldl_cons]
    exact ih (jsMapSet m x (g x))
      ((mem_jsKeys_jsMapSet m x c (g x)).mpr (Or.inr hc))

theorem mem_jsKeys_foldl_set_of_mem (g : String → BlobEntry)
    (l : List String) (m : List (String × BlobEntry)) (c : String)
    (hc : c ∈ l) :
    c ∈ jsKeys (l.foldl (fun m cpp => jsMapSet m cpp (g cpp)) m) := by
  induction l generalizing m with
  | nil => cases hc
  | cons x xs ih =>
    rw [List.foldl_cons]
    rcases List.mem_cons.mp hc with rfl | hc'
    · exact mem_jsKeys_foldl_set g xs (jsMapSet m c (g c)) c
        ((mem_jsKeys_jsMapSet m c c (g c)).mpr (Or.inl rfl))
    · exact ih _ hc'

theorem nodup_jsKeys_foldl_set (g : String → BlobEntry) (l : List String)
    (m : List (String × BlobEntry)) (h : (jsKeys m).Nodup) :
    (jsKeys (l.foldl (fun m cpp => jsMapSet m cpp (g cpp)) m)).Nodup := by
  induction l generalizing m with
  | nil => exact h
  | cons x xs ih =>
    rw [List.foldl_cons]
    exact ih (jsMapSet m x (g x)) (nodup_jsKeys_jsMapSet m x (g x) h)

/- ### C1: force-include union and duplication -/

/-- C1 counterexample: in the merged, re-sorted list itself the
at-most-once guarantee fails.  A file matching a force-include pattern
that is also genuinely missing (absent from the custom list) enters the
merge once from the diff and once from the force-include pass, so the
list after the union-and-resort merge holds it twice. -/
theorem c1_merged_list_duplicates :
    mergedMissingFiles codepointLe (some (fun _ => true))
      ["system/bin/b"] [] = ["system/bin/b", "system/bin/b"] := by
  decide

/-- C1 (amended): every stock file matching a force-include pattern
appears among the final named entries of the partition even if it is also
present in the custom list, and the final named-entry map holds each file
at most once — the deduplication happens at map insertion (entries are
keyed by combined partition path), not in the merged list itself. -/
theorem c1_force_include_named_entries (le : String → String → Bool)
    (mf : String → Bool) (p : String) (filesRef filesNew : List String)
    (m : List (String × BlobEntry)) (f : String)
    (hnodup : (jsKeys m).Nodup) (hmem : f ∈ filesRef)
    (hforce : mf f = true) :
    f ∈ jsKeys (partStep le (some mf) (some filesRef) (some filesNew) p m) ∧
    (jsKeys (partStep le (some mf) (some filesRef) (some filesNew) p m)).Nodup := by
  have hstep : partStep le (some mf) (some filesRef) (some filesNew) p m =
      (mergedMissingFiles le (some mf) filesRef filesNew).foldl
        (fun m cpp => jsMapSet m cpp (combinedPartPathToEntry p cpp)) m := rfl
  rw [hstep]
  constructor
  · apply mem_jsKeys_foldl_set_of_mem
    have hunfold : mergedMissingFiles le (some mf) filesRef filesNew =
        sortLe le (diffLists filesNew filesRef ++ filterValues mf filesRef) :=
      rfl
    rw [hunfold]
    exact (sortLe_perm le _).mem_iff.mpr
      (List.mem_append_right _ (List.mem_filter.mpr ⟨hmem, hforce⟩))
  · exact nodup_jsKeys_foldl_set _ _ m hnodup

/-- C1 witness: a force-included stock file that is also present in the
custom list still lands in the final named entries, exactly once. -/
theorem c1_force_include_named_entries_witness :
    "system/bin/b" ∈ jsKeys (partStep codepointLe
      (some (fun s => s == "system/bin/b")) (some ["system/bin/b"])
      (some ["system/bin/b"]) "system" []) ∧
    (jsKeys (partStep codepointLe (some (fun s => s == "system/bin/b"))
      (some ["system/bin/b"]) (some ["system/bin/b"]) "system" [])).Nodup :=
  c1_force_include_named_entries codepointLe (fun s => s == "system/bin/b")
    "system" ["system/bin/b"] ["system/bin/b"] [] "system/bin/b"
    (by decide) (by decide) (by decide)

/- ### C3: ordering of generated outputs -/

/-- C3 counterexample: the sort comparator is `localeCompare`, which
depends on the host locale, so the ordered outputs are not
locale-independent: the same packages-list input sorts differently under
a German-style collation and a Swedish-style collation (they disagree on
whether ä sorts with a or after z). -/
theorem c3_packages_list_locale_dependent :
    generatePackagesList deLe ["z"] ["ä"] ≠
      generatePackagesList svLe ["z"] ["ä"] := by
  decide

/-- C3 (amended): for a fixed collation (a total, transitive comparator,
as any one locale's `localeCompare` is) both ordered outputs — the
device-makefile packages list and the merged missing-file list — are
sorted with respect to that collation and are permutations of their
inputs, so two runs agreeing on the locale produce identical sequences;
the comparison is not locale-independent. -/
theorem c3_outputs_sorted_permutations (le : String → String → Bool)
    (htot : ∀ a b, le a b = true ∨ le b a = true)
    (htrans : ∀ a b c, le a b = true → le b c = true → le a c = true)
    (packages buildPkgs filesRef filesNew : List String)
    (mf : String → Bool) :
    (generatePackagesList le packages buildPkgs).Perm (packages ++ buildPkgs) ∧
    List.Pairwise (fun a b => le a b = true)
      (generatePackagesList le packages buildPkgs) ∧
    (mergedMissingFiles le (some mf) filesRef filesNew).Perm
      (diffLists filesNew filesRef ++ filterValues mf filesRef) ∧
    List.Pairwise (fun a b => le a b = true)
      (mergedMissingFiles le (some mf) filesRef filesNew) := by
  have hunfold : mergedMissingFiles le (some mf) filesRef filesNew =
      sortLe le (diffLists filesNew filesRef ++ filterValues mf filesRef) :=
    rfl
  refine ⟨sortLe_perm le _, pairwise_sortLe le htot htrans _, ?_, ?_⟩
  · rw [hunfold]; exact sortLe_perm le _
  · rw [hunfold]; exact pairwise_sortLe le htot htrans _

/-- C3 witness: the sorted-permutation property evaluated at the
code-point collation on concrete inputs. -/
theorem c3_outputs_sorted_permutations_witness :
    (generatePackagesList codepointLe ["b"] ["a"]).Perm (["b"] ++ ["a"]) ∧
    List.Pairwise (fun a b => codepointLe a b = true)
      (generatePackagesList codepointLe ["b"] ["a"]) ∧
    (mergedMissingFiles codepointLe (some (fun _ => true)) ["a"] []).Perm
      (diffLists [] ["a"] ++ filterValues (fun _ => true) ["a"]) ∧
    List.Pairwise (fun a b => codepointLe a b = true)
      (mergedMissingFiles codepointLe (some (fun _ => true)) ["a"] []) :=
  c3_outputs_sorted_permutations codepointLe
    (fun a b => keyedLe_total Char.toNat a b)
    (fun a b c => keyedLe_trans Char.toNat a b c)
    ["b"] ["a"] ["a"] [] (fun _ => true)

/- ### C7: absent partitions are skipped -/

/-- C7: when the stock root has no listing for a partition, or the custom
side has none, the enumeration stage skips that partition entirely: the
partition step returns the named-entry map unchanged (the embedding is a
total function, so no error is raised), and the whole enumeration equals
the fold in which that partition's step is the identity. -/
theorem c7_missing_partition_skipped (le : String → String → Bool)
    (mf : Option (String → Bool)) (stock : String → Option (List String))
    (customState customSrc : Option (String → Option (List String)))
    (init : List (String × BlobEntry)) (p : String)
    (m : List (String × BlobEntry))
    (h : stock p = none ∨ customFilesFor customState customSrc p = none) :
    partStep le mf (stock p) (customFilesFor customState customSrc p) p m = m ∧
    enumerateFiles le mf stock customState customSrc init =
      ALL_SYS_PARTITIONS.foldl
        (fun m q => if q = p then m
         else partStep le mf (stock q) (customFilesFor customState customSrc q) q m)
        init := by
  have hskip : ∀ m' : List (String × BlobEntry),
      partStep le mf (stock p) (customFilesFor customState customSrc p) p m' = m' := by
    intro m'
    rcases h with h | h
    · rw [h]; rfl
    · rw [h]; cases stock p <;> rfl
  refine ⟨hskip m, ?_⟩
  unfold enumerateFiles
  apply List.foldl_ext
  intro m' q hq
  by_cases hqp : q = p
  · rw [if_pos hqp, hqp]
    exact hskip m'
  · rw [if_neg hqp]

/-- C7 witness: a stock root with no listings never contributes entries,
and the enumeration is the identity fold. -/
theorem c7_missing_partition_skipped_witness :
    partStep codepointLe none ((fun _ => none) "vendor")
      (customFilesFor none none "vendor") "vendor"
      [("system/bin/a", ⟨"system", "bin/a"⟩)] =
      [("system/bin/a", ⟨"system", "bin/a"⟩)] ∧
    enumerateFiles codepointLe none (fun _ => none) none none [] =
      ALL_SYS_PARTITIONS.foldl
        (fun m q => if q = "vendor" then m
         else partStep codepointLe none ((fun _ => none) q)
           (customFilesFor none none q) q m) [] :=
  c7_missing_partition_skipped codepointLe none (fun _ => none) none none
    [] "vendor" [("system/bin/a", ⟨"system", "bin/a"⟩)] (Or.inl rfl)

/- ### C2: last-write-wins for combined source contexts -/

theorem insertAllCtxs_lookup_of_not_mem (entries : List (String × String))
    (m : List (String × String)) (L : String) (h : L ∉ jsKeys entries) :
    List.lookup L (insertAllCtxs m entries) = List.lookup L m := by
  induction entries generalizing m with
  | nil => rfl
  | cons e rest ih =>
    have h1 : L ≠ e.1 := fun hc => h (by simp [jsKeys, hc])
    have h2 : L ∉ jsKeys rest := fun hc => h (by
      simp [jsKeys] at hc ⊢
      exact Or.inr hc)
    have hstep : insertAllCtxs m (e :: rest) =
        insertAllCtxs (jsMapSet m e.1 e.2) rest := rfl
    rw [hstep, ih _ h2, lookup_jsMapSet, if_neg h1]

theorem insertAllCtxs_lookup_of_mem (entries : List (String × String))
    (m : List (String × String)) (L v : String)
    (hnodup : (jsKeys entries).Nodup) (hmem : (L, v) ∈ entries) :
    List.lookup L (insertAllCtxs m entries) = some v := by
  induction entries generalizing m with
  | nil => cases hmem
  | cons e rest ih =>
    have hstep : insertAllCtxs m (e :: rest) =
        insertAllCtxs (jsMapSet m e.1 e.2) rest := rfl
    rw [hstep]
    have hn := hnodup
    rw [jsKeys, List.map_cons] at hn
    obtain ⟨hnothead, hntail⟩ := List.nodup_cons.mp hn
    rcases List.mem_cons.mp hmem with heq | hmem'
    · obtain ⟨he1, he2⟩ : e.1 = L ∧ e.2 = v := by rw [← heq]; exact ⟨rfl, rfl⟩
      have hnot : L ∉ jsKeys rest := by rw [← he1]; exact hnothead
      rw [insertAllCtxs_lookup_of_not_mem rest _ L hnot, lookup_jsMapSet,
        if_pos he1.symm, he2]
    · exact ih _ hntail hmem'

/-- C2: last-write-wins for the combined source-context table.  Whenever
a label is defined (with a unique entry) by the last-listed sepolicy
source directory, the combined table resolves that label to that
directory's definition, whatever the earlier directories define for it
and regardless of the traversal order inside each directory (only
per-directory membership is assumed, so any per-directory entry order
gives the same resolution). -/
theorem c2_source_contexts_last_write_wins
    (parse : String → List (String × String)) (ds : List String)
    (dB : String) (L v : String)
    (hnodup : (jsKeys (parse dB)).Nodup) (hmem : (L, v) ∈ parse dB) :
    List.lookup L (combineSourceContexts parse (ds ++ [dB])) = some v := by
  have hsplit : combineSourceContexts parse (ds ++ [dB]) =
      insertAllCtxs (combineSourceContexts parse ds) (parse dB) := by
    unfold combineSourceContexts
    rw [List.foldl_append]
    rfl
  rw [hsplit]
  exact insertAllCtxs_lookup_of_mem (parse dB) _ L v hnodup hmem

/-- C2 witness: with directories [dirA, dirB] both defining ctxA, the
combined table resolves ctxA to dirB's definition. -/
theorem c2_source_contexts_last_write_wins_witness :
    List.lookup "ctxA" (combineSourceContexts
      (fun d => if d = "dirA" then [("ctxA", "fileA")]
        else [("ctxA", "fileA2"), ("ctxB", "fileB")])
      (["dirA"] ++ ["dirB"])) = some "fileA2" :=
  c2_source_contexts_last_write_wins
    (fun d => if d = "dirA" then [("ctxA", "fileA")]
      else [("ctxA", "fileA2"), ("ctxB", "fileB")])
    ["dirA"] "dirB" "ctxA" "fileA2" (by decide) (by decide)

/- ### C5: vendor sepolicy-directory injection -/

theorem lookup_map_update {α : Type} (m : List (String × α))
    (k k' : String) (g : α → α) :
    List.lookup k' (m.map (fun e => if e.1 == k then (e.1, g e.2) else e)) =
      if k' = k then (List.lookup k m).map g else List.lookup k' m := by
  induction m with
  | nil => by_cases h : k' = k <;> simp [h]
  | cons kv rest ih =>
    obtain ⟨a, b⟩ := kv
    rw [List.map_cons]
    by_cases h1 : a = k
    · have e1 : (if ((a, b).1 == k) then ((a, b).1, g (a, b).2) else (a, b)) =
          (a, g b) := by simp [h1]
      rw [e1]
      by_cases h2 : k' = k
      · rw [h2, ← h1, List.lookup_cons_self, List.lookup_cons_self]
        simp
      · rw [lookup_cons_ne a k' (g b) _ (fun hc => h2 (hc.trans h1)), ih,
          if_neg h2, if_neg h2,
          lookup_cons_ne a k' b rest (fun hc => h2 (hc.trans h1))]
    · have e1 : (if ((a, b).1 == k) then ((a, b).1, g (a, b).2) else (a, b)) =
          (a, b) := by simp [h1]
      rw [e1]
      by_cases h2 : k' = a
      · rw [h2, List.lookup_cons_self, if_neg h1, List.lookup_cons_self]
      · rw [lookup_cons_ne a k' b _ h2, ih]
        by_cases h3 : k' = k
        · rw [if_pos h3, if_pos h3,
            lookup_cons_ne a k b rest (fun hc => h1 hc.symm)]
        · rw [if_neg h3, if_neg h3, lookup_cons_ne a k' b rest h2]

/-- C5 counterexample: a run of the sepolicy resolver in which no vendor
context diff exists produces no vendor resolution at all, so no
sepolicy-directory list receives the tool's own sepolicy output
directory — the injection is guarded by the presence of a vendor entry,
not unconditional. -/
theorem c5_no_vendor_entry_no_injection :
    resolveSepolicyDirs [] (fun _ => []) [("system", ["ctxA"])]
      [("system", [])] (fun _ => true) "vendor/adevtool/sepolicy" =
      [("system", ⟨[], ["ctxA"]⟩)] ∧
    List.lookup "vendor" (resolveSepolicyDirs [] (fun _ => [])
      [("system", ["ctxA"])] [("system", [])] (fun _ => true)
      "vendor/adevtool/sepolicy") = none := by
  constructor <;> rfl

/-- C5 (amended): whenever the context-diff resolution produced a vendor
entry, the resolver's final vendor entry is that resolution with the
tool's own sepolicy output directory appended to its directory list; a
run without a vendor resolution injects nothing. -/
theorem c5_vendor_injection_when_present (sepolicyDirs : List String)
    (parse : String → List (String × String))
    (stockContexts customContexts : List (String × List String))
    (keepDir : String → Bool) (d : String) (r : PartResolution)
    (h : List.lookup "vendor"
      (ctxResolutionsOf sepolicyDirs parse stockContexts customContexts keepDir) =
      some r) :
    List.lookup "vendor"
      (resolveSepolicyDirs sepolicyDirs parse stockContexts customContexts
        keepDir d) =
      some ⟨r.sepolicyDirs ++ [d], r.missingContexts⟩ := by
  unfold resolveSepolicyDirs addApexLabels
  rw [h]
  simp only [Option.isSome_some, if_true]
  rw [lookup_map_update _ "vendor" "vendor"
    (fun pr : PartResolution => ⟨pr.sepolicyDirs ++ [d], pr.missingContexts⟩)]
  rw [if_pos rfl, h]
  rfl

/-- C5 witness: a run whose context diff yields a vendor entry has the
sepolicy output directory appended to the vendor directory list. -/
theorem c5_vendor_injection_when_present_witness :
    List.lookup "vendor" (resolveSepolicyDirs [] (fun _ => [])
      [("vendor", ["x"])] [("vendor", [])] (fun _ => true) "sep") =
      some ⟨["sep"], ["x"]⟩ :=
  c5_vendor_injection_when_present [] (fun _ => []) [("vendor", ["x"])]
    [("vendor", [])] (fun _ => true) "sep" ⟨[], ["x"]⟩ (by decide)

/- ### C4: self-module exclusion from override resolution -/

theorem lookup_eq_some_of_mem_nodup {α : Type} (m : List (String × α))
    (k : String) (v : α) (hnodup : (jsKeys m).Nodup) (hmem : (k, v) ∈ m) :
    List.lookup k m = some v := by
  induction m with
  | nil => cases hmem
  | cons e rest ih =>
    have hn := hnodup
    rw [jsKeys, List.map_cons] at hn
    obtain ⟨hnothead, hntail⟩ := List.nodup_cons.mp hn
    rcases List.mem_cons.mp hmem with heq | hmem'
    · obtain ⟨he1, he2⟩ : e.1 = k ∧ e.2 = v := by rw [← heq]; exact ⟨rfl, rfl⟩
      obtain ⟨a, b⟩ := e
      simp only at he1 he2
      rw [he1, he2, List.lookup_cons_self]
    · obtain ⟨a, b⟩ := e
      have hka : k ≠ a := by
        rintro rfl
        exact hnothead (List.mem_map.mpr ⟨(k, v), hmem', rfl⟩)
      rw [lookup_cons_ne a k b rest hka]
      exact ih hntail hmem'

/-- C4: a module whose metadata is owned by the tool's own proprietary
output directory is dropped before override matching, so it never appears
in the returned override-module list, whatever paths it claims to
install. -/
theorem c4_self_modules_never_override (deviceName proprietaryDir : String)
    (modulesMap : List (String × ModuleInfo))
    (namedEntries : List (String × BlobEntry)) (name : String)
    (info : ModuleInfo) (hnodup : (jsKeys modulesMap).Nodup)
    (hmem : (name, info) ∈ modulesMap)
    (hown : info.owningDir = proprietaryDir) :
    name ∉ (resolveOverrides deviceName proprietaryDir modulesMap namedEntries).1 := by
  intro hcontra
  have hshape : (resolveOverrides deviceName proprietaryDir modulesMap namedEntries).1 =
      ((removeSelfModules modulesMap proprietaryDir).filter
        (fun m => m.2.installedPaths.any
          (fun p => (targetPathsOf deviceName namedEntries).contains p))).map
        Prod.fst := rfl
  rw [hshape] at hcontra
  rcases List.mem_map.mp hcontra with ⟨m', hm', hfst⟩
  have hm'self : m' ∈ removeSelfModules modulesMap proprietaryDir :=
    (List.mem_filter.mp hm').1
  obtain ⟨hm'mem, hm'own⟩ := List.mem_filter.mp hm'self
  have hne : m'.2.owningDir ≠ proprietaryDir := by
    simpa [bne_iff_ne] using hm'own
  have hlk1 : List.lookup name modulesMap = some info :=
    lookup_eq_some_of_mem_nodup modulesMap name info hnodup hmem
  have hlk2 : List.lookup name modulesMap = some m'.2 := by
    apply lookup_eq_some_of_mem_nodup modulesMap name m'.2 hnodup
    have : m' = (name, m'.2) := by
      rw [← hfst]
    rw [← this]
    exact hm'mem
  rw [hlk1] at hlk2
  have : info = m'.2 := by injection hlk2
  exact hne (this ▸ hown)

/-- C4 witness: a module from the tool's own proprietary directory whose
installed path matches a candidate target path is still excluded. -/
theorem c4_self_modules_never_override_witness :
    "selfmod" ∉ (resolveOverrides "d" "vendor/adevtool/proprietary"
      [("selfmod", ⟨["out/target/product/d/vendor/app/X.apk"],
        "vendor/adevtool/proprietary"⟩)]
      [("vendor/app/X.apk", ⟨"vendor", "app/X.apk"⟩)]).1 :=
  c4_self_modules_never_override "d" "vendor/adevtool/proprietary"
    [("selfmod", ⟨["out/target/product/d/vendor/app/X.apk"],
      "vendor/adevtool/proprietary"⟩)]
    [("vendor/app/X.apk", ⟨"vendor", "app/X.apk"⟩)] "selfmod"
    ⟨["out/target/product/d/vendor/app/X.apk"], "vendor/adevtool/proprietary"⟩
    (by decide) (by decide) (by decide)

/- ### C8: removal of built paths and emission of override packages -/

theorem replFirst_append (pat rest : List Char) :
    replFirst pat (pat ++ rest) = rest := by
  cases pat with
  | nil =>
    cases rest with
    | nil => rfl
    | cons c cs =>
      show replFirst [] (c :: cs) = c :: cs
      rw [replFirst]
      simp [List.isPrefixOf]
  | cons c cs =>
    show replFirst (c :: cs) ((c :: cs) ++ rest) = rest
    rw [List.cons_append, replFirst]
    have hpre : (c :: cs).isPrefixOf (c :: (cs ++ rest)) = true := by
      rw [List.isPrefixOf_iff_prefix, ← List.cons_append]
      exact List.prefix_append (c :: cs) rest
    rw [if_pos hpre, ← List.cons_append, List.drop_left]

theorem jsReplaceOnce_append (pat k : String) :
    jsReplaceOnce (pat ++ k) pat = k := by
  unfold jsReplaceOnce
  have hdata : (pat ++ k).data = pat.data ++ k.data := by simp
  rw [hdata, replFirst_append]

theorem string_append_left_cancel (a b c : String) (h : a ++ b = a ++ c) :
    b = c := by
  have hd : a.data ++ b.data = a.data ++ c.data := by
    have := congrArg String.data h
    simpa using this
  exact String.ext (List.append_cancel_left hd)

theorem lookup_jsMapDelete {α : Type} (m : List (String × α))
    (k k' : String) :
    List.lookup k (jsMapDelete m k') =
      if k = k' then none else List.lookup k m := by
  induction m with
  | nil => by_cases h : k = k' <;> simp [jsMapDelete, h]
  | cons e rest ih =>
    obtain ⟨a, b⟩ := e
    have hcons : jsMapDelete ((a, b) :: rest) k' =
        if (a != k') = true then (a, b) :: jsMapDelete rest k'
        else jsMapDelete rest k' := List.filter_cons
    by_cases ha : a = k'
    · rw [hcons, if_neg (by simp [ha]), ih]
      by_cases hk : k = k'
      · rw [if_pos hk, if_pos hk]
      · rw [if_neg hk, if_neg hk,
          lookup_cons_ne a k b rest (fun hc => hk (hc.trans ha))]
    · rw [hcons, if_pos (by simp [ha])]
      by_cases hk : k = a
      · rw [hk, List.lookup_cons_self, if_neg ha, List.lookup_cons_self]
      · rw [lookup_cons_ne a k b _ hk, ih,
          lookup_cons_ne a k b rest hk]

theorem lookup_foldl_delete (paths : List String) (pre : String)
    (es : List (String × BlobEntry)) (k : String)
    (hsub : ∀ p ∈ paths, ∃ k0, p = pre ++ k0) :
    List.lookup k
      (paths.foldl (fun es p => jsMapDelete es (jsReplaceOnce p pre)) es) =
      if (pre ++ k) ∈ paths then none else List.lookup k es := by
  induction paths generalizing es with
  | nil => simp
  | cons p rest ih =>
    rw [List.foldl_cons]
    obtain ⟨k0, rfl⟩ := hsub p (List.mem_cons_self p rest)
    rw [jsReplaceOnce_append pre k0,
      ih _ (fun q hq => hsub q (List.mem_cons_of_mem _ hq))]
    by_cases hmem : (pre ++ k) ∈ rest
    · rw [if_pos hmem, if_pos (List.mem_cons_of_mem _ hmem)]
    · rw [if_neg hmem, lookup_jsMapDelete]
      by_cases heq : k = k0
      · rw [if_pos heq, if_pos (by rw [heq]; exact List.mem_cons_self _ _)]
      · rw [if_neg heq, if_neg (by
          intro hc
          rcases List.mem_cons.mp hc with hc' | hc'
          · exact heq (string_append_left_cancel pre k k0 hc')
          · exact hmem hc')]

theorem findOverrideModules_builtPaths_mem (tp : List String)
    (mm : List (String × ModuleInfo)) (p : String)
    (hp : p ∈ (findOverrideModules tp mm).2) : p ∈ tp := by
  have hshape : (findOverrideModules tp mm).2 =
      ((mm.filter (fun m => m.2.installedPaths.any (fun q => tp.contains q))).map
        (fun m => m.2.installedPaths.filter (fun q => tp.contains q))).flatten :=
    rfl
  rw [hshape] at hp
  rcases List.mem_flatten.mp hp with ⟨l, hl, hpl⟩
  rcases List.mem_map.mp hl with ⟨m', _, rfl⟩
  exact List.mem_of_elem_eq_true (List.mem_filter.mp hpl).2

/-- C8: the caller removes from the named-entry map exactly the keys
whose prefixed form is a returned built path — the lookup of any other
key is unchanged — and every returned override module is a member of the
re-sorted device-makefile packages list. -/
theorem c8_built_paths_removed_and_packages (deviceName proprietaryDir : String)
    (modulesMap : List (String × ModuleInfo))
    (namedEntries : List (String × BlobEntry))
    (le : String → String → Bool) (packages : List String)
    (k mname : String)
    (hm : mname ∈ (resolveOverrides deviceName proprietaryDir modulesMap namedEntries).1) :
    List.lookup k (resolveOverrides deviceName proprietaryDir modulesMap namedEntries).2 =
      (if (targetPrefixOf deviceName ++ k) ∈
        (resolveOverridesFound deviceName proprietaryDir modulesMap namedEntries).2
       then none else List.lookup k namedEntries) ∧
    mname ∈ generatePackagesList le packages
      (resolveOverrides deviceName proprietaryDir modulesMap namedEntries).1 := by
  constructor
  · have hshape : (resolveOverrides deviceName proprietaryDir modulesMap namedEntries).2 =
        (resolveOverridesFound deviceName proprietaryDir modulesMap namedEntries).2.foldl
          (fun es p => jsMapDelete es (jsReplaceOnce p (targetPrefixOf deviceName)))
          namedEntries := rfl
    rw [hshape]
    apply lookup_foldl_delete
    intro p hp
    have hptp : p ∈ targetPathsOf deviceName namedEntries :=
      findOverrideModules_builtPaths_mem _ _ p hp
    rcases List.mem_map.mp hptp with ⟨k0, _, rfl⟩
    exact ⟨k0, rfl⟩
  · exact (sortLe_perm le _).mem_iff.mpr (List.mem_append_right _ hm)

/-- C8 witness: with one override module matching one entry, the matched
entry's key is removed, an unrelated key keeps its binding, and the
module name lands in the packages list. -/
theorem c8_built_paths_removed_and_packages_witness :
    List.lookup "vendor/app/Y.apk" (resolveOverrides "d" "prop"
      [("mod", ⟨["out/target/product/d/vendor/app/X.apk"], "src/dir"⟩)]
      [("vendor/app/X.apk", ⟨"vendor", "app/X.apk"⟩),
       ("vendor/app/Y.apk", ⟨"vendor", "app/Y.apk"⟩)]).2 =
      (if ("out/target/product/d/" ++ "vendor/app/Y.apk") ∈
        (resolveOverridesFound "d" "prop"
          [("mod", ⟨["out/target/product/d/vendor/app/X.apk"], "src/dir"⟩)]
          [("vendor/app/X.apk", ⟨"vendor", "app/X.apk"⟩),
           ("vendor/app/Y.apk", ⟨"vendor", "app/Y.apk"⟩)]).2
       then none
       else List.lookup "vendor/app/Y.apk"
         [("vendor/app/X.apk", ⟨"vendor", "app/X.apk"⟩),
          ("vendor/app/Y.apk", ⟨"vendor", "app/Y.apk"⟩)]) ∧
    "mod" ∈ generatePackagesList codepointLe []
      (resolveOverrides "d" "prop"
        [("mod", ⟨["out/target/product/d/vendor/app/X.apk"], "src/dir"⟩)]
        [("vendor/app/X.apk", ⟨"vendor", "app/X.apk"⟩),
         ("vendor/app/Y.apk", ⟨"vendor", "app/Y.apk"⟩)]).1 :=
  c8_built_paths_removed_and_packages "d" "prop"
    [("mod", ⟨["out/target/product/d/vendor/app/X.apk"], "src/dir"⟩)]
    [("vendor/app/X.apk", ⟨"vendor", "app/X.apk"⟩),
     ("vendor/app/Y.apk", ⟨"vendor", "app/Y.apk"⟩)]
    codepointLe [] "vendor/app/Y.apk" "mod" (by decide)

/- ### C6: missing properties are exactly the removed category -/

theorem lookup_map_value {α β : Type} (m : List (String × α))
    (f : String → α → β) (k : String) :
    List.lookup k (m.map (fun e => (e.1, f e.1 e.2))) =
      (List.lookup k m).map (f k) := by
  induction m with
  | nil => rfl
  | cons e rest ih =>
    obtain ⟨a, b⟩ := e
    rw [List.map_cons]
    by_cases hk : k = a
    · rw [hk, List.lookup_cons_self, List.lookup_cons_self]
      rfl
    · rw [lookup_cons_ne a k (f a b) _ hk, lookup_cons_ne a k b rest hk, ih]

theorem missingPropsOf_eq (stock custom : List (String × List (String × String))) :
    missingPropsOf stock custom =
      stock.map (fun e =>
        (e.1, propsRemoved e.2 ((List.lookup e.1 custom).getD []))) := by
  unfold missingPropsOf diffPartitionProps
  rw [List.map_map]
  rfl

/-- C6: the missing-props output contains, for a partition of the stock
map, exactly the stock properties whose key is absent from the custom
partition (the removed category); a key present in custom — with any
value, equal or different — is never in the missing-props output. -/
theorem c6_missing_props_exactly_removed
    (stock custom : List (String × List (String × String)))
    (part : String) (stockP : List (String × String)) (k v : String)
    (hnodup : (jsKeys stock).Nodup) (hpart : (part, stockP) ∈ stock) :
    ((k, v) ∈ (List.lookup part (missingPropsOf stock custom)).getD [] ↔
      (k, v) ∈ stockP ∧
      List.lookup k ((List.lookup part custom).getD []) = none) ∧
    ((List.lookup k ((List.lookup part custom).getD [])).isSome = true →
      (k, v) ∉ (List.lookup part (missingPropsOf stock custom)).getD []) := by
  have hlk : List.lookup part stock = some stockP :=
    lookup_eq_some_of_mem_nodup stock part stockP hnodup hpart
  have hmp : List.lookup part (missingPropsOf stock custom) =
      some (propsRemoved stockP ((List.lookup part custom).getD [])) := by
    rw [missingPropsOf_eq,
      lookup_map_value stock
        (fun p sp => propsRemoved sp ((List.lookup p custom).getD [])) part,
      hlk]
    rfl
  rw [hmp]
  constructor
  · simp only [Option.getD_some]
    constructor
    · intro h
      have hmf := List.mem_filter.mp h
      refine ⟨hmf.1, ?_⟩
      have := hmf.2
      simpa [Option.isNone_iff_eq_none] using this
    · rintro ⟨h1, h2⟩
      refine List.mem_filter.mpr ⟨h1, ?_⟩
      simp [h2]
  · intro hsome hmem
    simp only [Option.getD_some] at hmem
    have hnone := (List.mem_filter.mp hmem).2
    simp only [Option.isNone_iff_eq_none] at hnone
    rw [hnone] at hsome
    cases hsome

/-- C6 witness: `ro.a=1` in stock and absent from custom is in the
missing output; `ro.b` present in both with different values is not. -/
theorem c6_missing_props_exactly_removed_witness :
    (("ro.a", "1") ∈ (List.lookup "product" (missingPropsOf
      [("product", [("ro.a", "1"), ("ro.b", "1")])]
      [("product", [("ro.b", "2")])])).getD [] ↔
      ("ro.a", "1") ∈ [("ro.a", "1"), ("ro.b", "1")] ∧
      List.lookup "ro.a" ((List.lookup "product"
        [("product", [("ro.b", "2")])]).getD []) = none) ∧
    ((List.lookup "ro.a" ((List.lookup "product"
        [("product", [("ro.b", "2")])]).getD [])).isSome = true →
      ("ro.a", "1") ∉ (List.lookup "product" (missingPropsOf
        [("product", [("ro.a", "1"), ("ro.b", "1")])]
        [("product", [("ro.b", "2")])])).getD []) :=
  c6_missing_props_exactly_removed
    [("product", [("ro.a", "1"), ("ro.b", "1")])]
    [("product", [("ro.b", "2")])] "product"
    [("ro.a", "1"), ("ro.b", "1")] "ro.a" "1" (by decide) (by decide)

/- ### C10: unconditional dereferences in extractProps -/

/-- C10 counterexample: a stock image whose system partition map exists
but lacks the fingerprint key does not make `extractProps` fail — the
non-null assertion is erased at runtime, so the call succeeds and the
fingerprint is simply absent. -/
theorem c10_missing_fingerprint_key_no_failure :
    (extractProps (fun _ => true) (fun _ => true)
      [("system", []), ("product", [("ro.product.ab_ota_partitions", "a")])]
      []).map PropResults.fingerprint = some none := by
  decide

/-- C10 (amended): `extractProps` fails exactly when the filtered stock
props lack the system partition map, the product partition map, or the
product `ro.product.ab_ota_partitions` value (the `.get` on an absent
map and the `.split` on an absent value throw); a missing
`ro.system.build.fingerprint` key does not fail — on success the
fingerprint is just the optional lookup of that key. -/
theorem c10_extract_props_failure_modes (keepProp keepPartition : String → Bool)
    (sraw craw : List (String × List (String × String))) :
    (extractProps keepProp keepPartition sraw craw = none ↔
      List.lookup "system" (filterAllProps keepProp sraw) = none ∨
      (List.lookup "product" (filterAllProps keepProp sraw)).bind
        (fun pp => List.lookup "ro.product.ab_ota_partitions" pp) = none) ∧
    ((extractProps keepProp keepPartition sraw craw).map PropResults.fingerprint =
      if extractProps keepProp keepPartition sraw craw = none then none
      else (List.lookup "system" (filterAllProps keepProp sraw)).map
        (fun sys => List.lookup "ro.system.build.fingerprint" sys)) := by
  cases hs : List.lookup "system" (filterAllProps keepProp sraw) with
  | none =>
    have he : extractProps keepProp keepPartition sraw craw = none := by
      simp only [extractProps]
      rw [hs]
    rw [he]
    constructor
    · simp [hs]
    · simp
  | some sys =>
    cases hp : List.lookup "product" (filterAllProps keepProp sraw) with
    | none =>
      have he : extractProps keepProp keepPartition sraw craw = none := by
        simp only [extractProps, hs, hp]
      rw [he]
      constructor
      · simp [hs, hp]
      · simp
    | some pp =>
      cases ho : List.lookup "ro.product.ab_ota_partitions" pp with
      | none =>
        have he : extractProps keepProp keepPartition sraw craw = none := by
          simp only [extractProps, hs, hp, ho]
        rw [he]
        constructor
        · simp [hs, hp, ho]
        · simp
      | some ota =>
        have he : extractProps keepProp keepPartition sraw craw =
            some ⟨filterAllProps keepProp sraw,
              missingPropsOf (filterAllProps keepProp sraw)
                (filterAllProps keepProp craw),
              List.lookup "ro.system.build.fingerprint" sys,
              (ota.splitOn ",").filter (fun p =>
                !(((((List.lookup "product" (filterAllProps keepProp craw)).bind
                  (fun pp => List.lookup "ro.product.ab_ota_partitions" pp)).map
                  (fun s => s.splitOn ",")).getD []).contains p) &&
                keepPartition p)⟩ := by
          simp only [extractProps, hs, hp, ho]
        rw [he]
        constructor
        · simp [hs, hp, ho]
        · simp

/- ### C9: board serializer surfaces unresolved contexts -/

theorem resolutionStep_eq (bs : List String) (e : String × PartResolution) :
    resolutionStep bs e = bs ++ resolutionBlocks e := by
  unfold resolutionStep resolutionBlocks addContBlock
  by_cases h1 : e.2.sepolicyDirs.length > 0
  · by_cases h2 : e.2.missingContexts.length > 0
    · simp [h1, h2]
    · simp [h1, h2]
  · by_cases h2 : e.2.missingContexts.length > 0
    · simp [h1, h2]
    · simp [h1, h2]

theorem foldl_resolutionStep (res : List (String × PartResolution))
    (bs : List String) :
    res.foldl resolutionStep bs = bs ++ (res.map resolutionBlocks).flatten := by
  induction res generalizing bs with
  | nil => simp
  | cons e rest ih =>
    rw [List.foldl_cons, resolutionStep_eq, ih, List.map_cons,
      List.flatten_cons, List.append_assoc]

/-- C9: the board serializer appends, after the fixed blocks, exactly
each partition resolution's contribution in order; a partition's
sepolicy-directory variable block is part of its contribution exactly
when its directory list is non-empty; and every unresolved context label
of every partition is surfaced — its partition's diagnostic block (the
join of one comment line per label, each naming the partition and the
label) is a block of the serialized output, never dropped. -/
theorem c9_board_serializer_surfaces (mk : BoardMakefile)
    (res : List (String × PartResolution)) (part : String)
    (r : PartResolution) (c : String)
    (hres : mk.secontextResolutions = some res) (hpr : (part, r) ∈ res) :
    (serializeBoardBlocks mk =
      serializeBoardBlocks ⟨mk.abOtaPartitions, mk.boardInfo, none⟩ ++
        (res.map resolutionBlocks).flatten) ∧
    (r.sepolicyDirs ≠ [] →
      ((SEPOLICY_PARTITION_VARS part).getD "undefined" ++ " += \\\n    " ++
        String.intercalate CONT_SEPARATOR r.sepolicyDirs) ∈
        resolutionBlocks (part, r)) ∧
    (r.sepolicyDirs = [] →
      resolutionBlocks (part, r) =
        if r.missingContexts.length > 0 then
          [missingCtxBlock part r.missingContexts]
        else []) ∧
    (c ∈ r.missingContexts →
      missingCtxBlock part r.missingContexts ∈ serializeBoardBlocks mk ∧
      missingCtxLine part c ∈ r.missingContexts.map (missingCtxLine part)) := by
  have hblocks : serializeBoardBlocks mk =
      serializeBoardBlocks ⟨mk.abOtaPartitions, mk.boardInfo, none⟩ ++
        (res.map resolutionBlocks).flatten := by
    simp only [serializeBoardBlocks, hres]
    rw [foldl_resolutionStep]
  refine ⟨hblocks, ?_, ?_, ?_⟩
  · intro h
    have hlen : r.sepolicyDirs.length > 0 := List.length_pos.mpr h
    simp [resolutionBlocks, hlen]
  · intro h
    simp [resolutionBlocks, h]
  · intro hc
    constructor
    · rw [hblocks]
      apply List.mem_append_right
      apply List.mem_flatten.mpr
      refine ⟨resolutionBlocks (part, r),
        List.mem_map.mpr ⟨(part, r), hpr, rfl⟩, ?_⟩
      have hlen : r.missingContexts.length > 0 :=
        List.length_pos.mpr (List.ne_nil_of_mem hc)
      simp [resolutionBlocks, hlen]
    · exact List.mem_map.mpr ⟨c, hc, rfl⟩

/-- C9 witness: a vendor resolution with one directory and one
unresolved context has its variable block in its contribution and its
diagnostic block in the serialized output. -/
theorem c9_board_serializer_surfaces_witness :
    (serializeBoardBlocks ⟨none, none, some [("vendor", ⟨["a/b"], ["ctxZ"]⟩)]⟩ =
      serializeBoardBlocks ⟨none, none, none⟩ ++
        ([("vendor", (⟨["a/b"], ["ctxZ"]⟩ : PartResolution))].map
          resolutionBlocks).flatten) ∧
    ((⟨["a/b"], ["ctxZ"]⟩ : PartResolution).sepolicyDirs ≠ [] →
      ((SEPOLICY_PARTITION_VARS "vendor").getD "undefined" ++ " += \\\n    " ++
        String.intercalate CONT_SEPARATOR
          (⟨["a/b"], ["ctxZ"]⟩ : PartResolution).sepolicyDirs) ∈
        resolutionBlocks ("vendor", ⟨["a/b"], ["ctxZ"]⟩)) ∧
    ((⟨["a/b"], ["ctxZ"]⟩ : PartResolution).sepolicyDirs = [] →
      resolutionBlocks ("vendor", ⟨["a/b"], ["ctxZ"]⟩) =
        if (⟨["a/b"], ["ctxZ"]⟩ : PartResolution).missingContexts.length > 0 then
          [missingCtxBlock "vendor"
            (⟨["a/b"], ["ctxZ"]⟩ : PartResolution).missingContexts]
        else []) ∧
    ("ctxZ" ∈ (⟨["a/b"], ["ctxZ"]⟩ : PartResolution).missingContexts →
      missingCtxBlock "vendor"
        (⟨["a/b"], ["ctxZ"]⟩ : PartResolution).missingContexts ∈
        serializeBoardBlocks ⟨none, none, some [("vendor", ⟨["a/b"], ["ctxZ"]⟩)]⟩ ∧
      missingCtxLine "vendor" "ctxZ" ∈
        (⟨["a/b"], ["ctxZ"]⟩ : PartResolution).missingContexts.map
          (missingCtxLine "vendor")) :=
  c9_board_serializer_surfaces
    ⟨none, none, some [("vendor", ⟨["a/b"], ["ctxZ"]⟩)]⟩
    [("vendor", ⟨["a/b"], ["ctxZ"]⟩)] "vendor" ⟨["a/b"], ["ctxZ"]⟩ "ctxZ"
    rfl (by decide)
